import Mathlib

/-!
Formal model of the SPHINCS+ parameter-set search program
(files `gamma.c` and `search.c`), shallowly embedded over natural numbers.

All integer arithmetic of `search.c` is modelled over `ℕ` (the one place
where unsigned wraparound matters — the pruning comparison
`h < num_sig - 5` — is modelled with an explicit `% 2^32`).  The
floating-point security estimator of `gamma.c` (`compute_sec_level`,
`check_sec_level`, `compute_sigs_at_sec_level`) computes with IEEE
doubles and transcendental functions; the enumerator and ranking code of
`search.c` only consumes its boolean verdict and its non-negative
integer overuse score, so those two entry points are abstracted here as
oracle parameters (`chk` and `ov`) of the search pipeline.  The C
`float` variable `cost_hypertree` always holds an integer value computed
from integer inputs; it is modelled exactly over `ℕ`.
-/

namespace SphincsSearch

/-- Mirror of `struct parameter_set` from `search.c`.  The intrusive
`link` pointer is replaced by membership in Lean lists.  The C fields
are narrow unsigned integers; every claim-relevant value stays far
below its wrap bound, so the fields are modelled as `ℕ`. -/
structure ParameterSet where
  h : ℕ
  d : ℕ
  a : ℕ
  k : ℕ
  w : ℕ
  sig_size : ℕ
  sig_time : ℕ
  ver_time : ℕ
deriving DecidableEq, Repr

/-- Mirror of `my_compare` from `search.c`: returns `1` when `a` is
strictly better, `-1` when `b` is strictly better, and `0` on a full
tie, comparing signature size, then signing time, then verify time. -/
def my_compare (a b : ParameterSet) : ℤ :=
  if a.sig_size < b.sig_size then 1
  else if a.sig_size > b.sig_size then -1
  else if a.sig_time < b.sig_time then 1
  else if a.sig_time > b.sig_time then -1
  else if a.ver_time < b.ver_time then 1
  else if a.ver_time > b.ver_time then -1
  else 0

/-- The best-first order induced by `my_compare`: lexicographic on
(signature size, signing time, verification time), all ascending. -/
def sortLE (a b : ParameterSet) : Prop :=
  a.sig_size < b.sig_size ∨
    (a.sig_size = b.sig_size ∧
      (a.sig_time < b.sig_time ∨
        (a.sig_time = b.sig_time ∧ a.ver_time ≤ b.ver_time)))

/-- The weaker signature-size order used by the selection loop. -/
def sizeLE (a b : ParameterSet) : Prop := a.sig_size ≤ b.sig_size

theorem my_compare_nonneg_iff (a b : ParameterSet) :
    0 ≤ my_compare a b ↔ sortLE a b := by
  unfold my_compare sortLE
  split_ifs <;> omega

theorem sortLE_of_not_sortLE {a b : ParameterSet} (h : ¬ sortLE a b) :
    sortLE b a := by
  unfold sortLE at *
  omega

theorem sortLE_trans {a b c : ParameterSet} (h1 : sortLE a b)
    (h2 : sortLE b c) : sortLE a c := by
  unfold sortLE at *
  omega

theorem sortLE_sizeLE {a b : ParameterSet} (h : sortLE a b) : sizeLE a b := by
  unfold sortLE sizeLE at *
  omega

/-- Fuel-indexed model of `my_merge` from `search.c`: merge two
best-first lists into one, preferring the left head on ties
(`my_compare(a,b) >= 0`).  The fuel is structural recursion bookkeeping
only; `my_merge` below instantiates it with the exact number of loop
iterations the C `while` performs. -/
def mergeFuel : ℕ → List ParameterSet → List ParameterSet → List ParameterSet
  | 0, _, _ => []
  | _ + 1, [], b => b
  | _ + 1, x :: xs, [] => x :: xs
  | fuel + 1, x :: xs, y :: ys =>
    if 0 ≤ my_compare x y then x :: mergeFuel fuel xs (y :: ys)
    else y :: mergeFuel fuel (x :: xs) ys

/-- Model of `my_merge` from `search.c`. -/
def my_merge (a b : List ParameterSet) : List ParameterSet :=
  mergeFuel (a.length + b.length) a b

theorem mergeFuel_perm :
    ∀ (fuel : ℕ) (a b : List ParameterSet),
      a.length + b.length ≤ fuel → List.Perm (mergeFuel fuel a b) (a ++ b)
  | 0, a, b, h => by
    have ha : a = [] := List.eq_nil_of_length_eq_zero (by omega)
    have hb : b = [] := List.eq_nil_of_length_eq_zero (by omega)
    subst ha; subst hb; simp [mergeFuel]
  | fuel + 1, [], b, _ => by simp [mergeFuel]
  | fuel + 1, x :: xs, [], _ => by simp [mergeFuel]
  | fuel + 1, x :: xs, y :: ys, h => by
    rw [mergeFuel]
    split
    · exact (mergeFuel_perm fuel xs (y :: ys) (by simp at h ⊢; omega)).cons x
    · refine ((mergeFuel_perm fuel (x :: xs) ys
        (by simp at h ⊢; omega)).cons y).trans ?_
      exact (@List.perm_middle _ y (x :: xs) ys).symm

theorem my_merge_perm (a b : List ParameterSet) : List.Perm (my_merge a b) (a ++ b) :=
  mergeFuel_perm _ a b le_rfl

theorem mem_mergeFuel {fuel : ℕ} {a b : List ParameterSet}
    (h : a.length + b.length ≤ fuel) {z : ParameterSet}
    (hz : z ∈ mergeFuel fuel a b) : z ∈ a ∨ z ∈ b := by
  have := (mergeFuel_perm fuel a b h).mem_iff.mp hz
  simpa using this

theorem mergeFuel_sorted :
    ∀ (fuel : ℕ) (a b : List ParameterSet),
      a.length + b.length ≤ fuel →
      a.Pairwise sortLE → b.Pairwise sortLE →
      (mergeFuel fuel a b).Pairwise sortLE
  | 0, _, _, _, _, _ => by simp [mergeFuel]
  | fuel + 1, [], b, _, _, hb => by simpa [mergeFuel] using hb
  | fuel + 1, x :: xs, [], _, ha, _ => by simpa [mergeFuel] using ha
  | fuel + 1, x :: xs, y :: ys, h, ha, hb => by
    rw [mergeFuel]
    have hax := (List.pairwise_cons.mp ha).1
    have haxs := (List.pairwise_cons.mp ha).2
    have hby := (List.pairwise_cons.mp hb).1
    have hbys := (List.pairwise_cons.mp hb).2
    split
    · next hle =>
      have hxy : sortLE x y := (my_compare_nonneg_iff x y).mp hle
      refine List.pairwise_cons.mpr ⟨?_, ?_⟩
      · intro z hz
        rcases mem_mergeFuel (by simp at h ⊢; omega) hz with hz' | hz'
        · exact hax z hz'
        · rcases List.mem_cons.mp hz' with rfl | hz''
          · exact hxy
          · exact sortLE_trans hxy (hby z hz'')
      · exact mergeFuel_sorted fuel xs (y :: ys) (by simp at h ⊢; omega)
          haxs hb
    · next hle =>
      have hyx : sortLE y x :=
        sortLE_of_not_sortLE (fun hc => hle ((my_compare_nonneg_iff x y).mpr hc))
      refine List.pairwise_cons.mpr ⟨?_, ?_⟩
      · intro z hz
        rcases mem_mergeFuel (by simp at h ⊢; omega) hz with hz' | hz'
        · rcases List.mem_cons.mp hz' with rfl | hz''
          · exact hyx
          · exact sortLE_trans hyx (hax z hz'')
        · exact hby z hz'
      · exact mergeFuel_sorted fuel (x :: xs) ys (by simp at h ⊢; omega)
          ha hbys

theorem my_merge_sorted {a b : List ParameterSet}
    (ha : a.Pairwise sortLE) (hb : b.Pairwise sortLE) :
    (my_merge a b).Pairwise sortLE :=
  mergeFuel_sorted _ a b le_rfl ha hb

/-- One ripple-add of a sorted run `q` into the binary-counter bins of
`my_sort` (`search.c`): an empty bin (`none`) absorbs the run, an
occupied bin is merged (`my_merge(bins[i], p)`) and the carry ripples
on.  The last bin doubles as the overflow bin: when the carry reaches
it, the merged run is stored there (`bins[NUM_BIN-1] = p`). -/
def ripple (q : List ParameterSet) :
    List (Option (List ParameterSet)) → List (Option (List ParameterSet))
  | [] => []
  | [none] => [some q]
  | [some l] => [some (my_merge l q)]
  | none :: rest => some q :: rest
  | some l :: rest => none :: ripple (my_merge l q) rest

/-- All parameter sets currently held in the bins, in bin order. -/
def binsFlat (bs : List (Option (List ParameterSet))) : List ParameterSet :=
  (bs.map (fun ob => ob.getD [])).flatten

/-- The insertion phase of `my_sort`: feed each element of the input
list, as a singleton run, into the bins. -/
def insertAll (l : List ParameterSet)
    (bs : List (Option (List ParameterSet))) :
    List (Option (List ParameterSet)) :=
  l.foldl (fun bs p => ripple [p] bs) bs

/-- Model of `my_sort` from `search.c`: bottom-up merge sort with
`NUM_BIN = 20` binary-counter bins, then a final merge of all bins
(`p = my_merge(bins[i], p)` for `i = 0..19`, starting from the empty
list). -/
def my_sort (l : List ParameterSet) : List ParameterSet :=
  (insertAll l (List.replicate 20 none)).foldl
    (fun acc ob => my_merge (ob.getD []) acc) []

theorem ripple_length (q : List ParameterSet) :
    ∀ bs : List (Option (List ParameterSet)),
      (ripple q bs).length = bs.length := by
  intro bs
  induction bs generalizing q with
  | nil => simp [ripple]
  | cons hd tl ih =>
    cases hd with
    | none => cases tl <;> simp [ripple]
    | some l => cases tl with
      | nil => simp [ripple]
      | cons h2 t2 => simpa [ripple] using ih (my_merge l q)

theorem ripple_perm (q : List ParameterSet) :
    ∀ bs : List (Option (List ParameterSet)), bs ≠ [] →
      List.Perm (binsFlat (ripple q bs)) (q ++ binsFlat bs) := by
  intro bs
  induction bs generalizing q with
  | nil => intro h; exact absurd rfl h
  | cons hd tl ih =>
    intro _
    cases hd with
    | none =>
      cases tl <;> simp [ripple, binsFlat]
    | some l =>
      cases tl with
      | nil =>
        simp only [ripple, binsFlat, List.map_cons, List.map_nil,
          List.flatten, Option.getD_some, List.append_nil]
        exact (my_merge_perm l q).trans List.perm_append_comm
      | cons h2 t2 =>
        have hstep : List.Perm (binsFlat (ripple (my_merge l q) (h2 :: t2)))
            (q ++ (l ++ binsFlat (h2 :: t2))) := by
          refine (ih (my_merge l q) (by simp)).trans ?_
          have h3 := (my_merge_perm l q).append_right (binsFlat (h2 :: t2))
          have h4 :=
            (@List.perm_append_comm _ l q).append_right
              (binsFlat (h2 :: t2))
          simpa [List.append_assoc] using h3.trans h4
        simpa [ripple, binsFlat] using hstep

theorem ripple_sorted (q : List ParameterSet) (hq : q.Pairwise sortLE) :
    ∀ bs : List (Option (List ParameterSet)),
      (∀ l, some l ∈ bs → l.Pairwise sortLE) →
      ∀ l, some l ∈ ripple q bs → l.Pairwise sortLE := by
  intro bs
  induction bs generalizing q with
  | nil => simp [ripple]
  | cons hd tl ih =>
    intro hbs l hl
    cases hd with
    | none =>
      cases tl with
      | nil =>
        simp only [ripple, List.mem_singleton, Option.some.injEq] at hl
        subst hl; exact hq
      | cons h2 t2 =>
        rcases List.mem_cons.mp hl with h | h
        · cases h; exact hq
        · exact hbs l (List.mem_cons_of_mem _ h)
    | some l0 =>
      have hl0 : l0.Pairwise sortLE := hbs l0 (List.mem_cons_self _ _)
      cases tl with
      | nil =>
        simp only [ripple, List.mem_singleton, Option.some.injEq] at hl
        subst hl; exact my_merge_sorted hl0 hq
      | cons h2 t2 =>
        rcases List.mem_cons.mp hl with h | h
        · exact absurd h.symm (by simp)
        · exact ih (my_merge l0 q) (my_merge_sorted hl0 hq)
            (fun l' hl' => hbs l' (List.mem_cons_of_mem _ hl')) l h

theorem insertAll_perm :
    ∀ (l : List ParameterSet) (bs : List (Option (List ParameterSet))),
      bs ≠ [] → List.Perm (binsFlat (insertAll l bs)) (l ++ binsFlat bs)
  | [], bs, _ => by simp [insertAll]
  | p :: l, bs, hbs => by
    have hne : ripple [p] bs ≠ [] := by
      intro h
      have := ripple_length [p] bs
      rw [h] at this
      exact hbs (List.eq_nil_of_length_eq_zero this.symm)
    have h1 := insertAll_perm l (ripple [p] bs) hne
    have h2 := (ripple_perm [p] bs hbs).append_left l
    refine h1.trans (h2.trans ?_)
    exact @List.perm_middle _ p l (binsFlat bs)

theorem insertAll_sorted :
    ∀ (l : List ParameterSet) (bs : List (Option (List ParameterSet))),
      (∀ r, some r ∈ bs → r.Pairwise sortLE) →
      ∀ r, some r ∈ insertAll l bs → r.Pairwise sortLE
  | [], bs, hbs => hbs
  | p :: l, bs, hbs => by
    exact insertAll_sorted l (ripple [p] bs)
      (ripple_sorted [p] (by simp) bs hbs)

theorem foldMerge_perm :
    ∀ (bs : List (Option (List ParameterSet))) (acc : List ParameterSet),
      List.Perm (bs.foldl (fun acc ob => my_merge (ob.getD []) acc) acc)
        (binsFlat bs ++ acc)
  | [], acc => by simp [binsFlat]
  | ob :: bs, acc => by
    refine (foldMerge_perm bs (my_merge (ob.getD []) acc)).trans ?_
    have h1 : List.Perm (my_merge (ob.getD []) acc) (ob.getD [] ++ acc) :=
      my_merge_perm _ _
    refine (h1.append_left (binsFlat bs)).trans ?_
    have h2 :=
      (@List.perm_append_comm _ (binsFlat bs) (ob.getD [])).append_right acc
    have h3 : List.Perm (binsFlat bs ++ (ob.getD [] ++ acc))
        ((ob.getD [] ++ binsFlat bs) ++ acc) := by
      simpa [List.append_assoc] using h2
    simpa [binsFlat, List.append_assoc] using h3

theorem foldMerge_sorted :
    ∀ (bs : List (Option (List ParameterSet))) (acc : List ParameterSet),
      (∀ r, some r ∈ bs → r.Pairwise sortLE) → acc.Pairwise sortLE →
      (bs.foldl (fun acc ob => my_merge (ob.getD []) acc) acc).Pairwise sortLE
  | [], acc, _, hacc => hacc
  | ob :: bs, acc, hbs, hacc => by
    refine foldMerge_sorted bs (my_merge (ob.getD []) acc)
      (fun r hr => hbs r (List.mem_cons_of_mem _ hr)) ?_
    refine my_merge_sorted ?_ hacc
    cases ob with
    | none => simp
    | some r => exact hbs r (List.mem_cons_self _ _)

theorem my_sort_perm (l : List ParameterSet) : List.Perm (my_sort l) l := by
  unfold my_sort
  refine (foldMerge_perm _ []).trans ?_
  rw [List.append_nil]
  refine (insertAll_perm l (List.replicate 20 none) (by simp)).trans ?_
  simp [binsFlat]

theorem my_sort_sorted (l : List ParameterSet) :
    (my_sort l).Pairwise sortLE := by
  unfold my_sort
  refine foldMerge_sorted _ [] ?_ (by simp)
  refine insertAll_sorted l (List.replicate 20 none) ?_
  intro r hr
  have := List.eq_of_mem_replicate hr
  exact absurd this (by simp)

/-- Fuel-indexed body of `ilog2` from `search.c`: count how often `n`
can be halved before it is at most 1. -/
def ilog2Go : ℕ → ℕ → ℕ
  | 0, _ => 0
  | fuel + 1, n => if n > 1 then ilog2Go fuel (n / 2) + 1 else 0

/-- Model of `ilog2` from `search.c` (`for (i=0; n>1; i++, n >>= 1)`).
The fuel `n` dominates the number of halvings the C loop performs. -/
def ilog2 (n : ℕ) : ℕ := ilog2Go n n

/-- Hash size in bytes from the security level
(`hash_size = (sec_level + 7)/8` in `do_search`). -/
def hashSize (sec_level : ℕ) : ℕ := (sec_level + 7) / 8

/-- Number of Winternitz digits expressing the hash
(`hash_d = (sec_level + log_w - 1) / log_w`). -/
def hashDigits (sec_level log_w : ℕ) : ℕ := (sec_level + log_w - 1) / log_w

/-- Fuel-indexed model of the checksum-digit loop of `do_search`
(`for (checksum_d = 1, prod = w; prod < max_sum; checksum_d++, prod *= w)`).
The fuel bounds the iteration count; since `prod` is multiplied by
`w ≥ 4` each step, `max_sum + 1` steps always suffice to exit. -/
def csLoop (w max_sum : ℕ) : ℕ → ℕ → ℕ → ℕ
  | 0, checksum_d, _ => checksum_d
  | fuel + 1, checksum_d, prod =>
    if prod < max_sum then csLoop w max_sum fuel (checksum_d + 1) (prod * w)
    else checksum_d

/-- Total Winternitz digit count `wd = hash_d + checksum_d` of
`do_search`. -/
def wdOf (sec_level w log_w : ℕ) : ℕ :=
  let hash_d := hashDigits sec_level log_w
  let max_sum := (w - 1) * hash_d
  hash_d + csLoop w max_sum (max_sum + 1) 1 w

/-- One-time-signature key generation cost `cost_ots = 1 + wd * w`. -/
def cost_ots (sec_level w log_w : ℕ) : ℕ := 1 + wdOf sec_level w log_w * w

/-- FORS tree construction cost `cost_fors_tree = 3*(1 << a) - 1`. -/
def cost_fors_tree (a : ℕ) : ℕ := 3 * 2 ^ a - 1

/-- Hypertree construction cost
`cost_hypertree = d*((cost_ots+1) * node_tree - 1)` with
`node_tree = 1 << h_merkle`.  The C code stores this in a `float`; the
value is an exact integer computed from integers and is modelled over
`ℕ`. -/
def cost_hypertree (c_ots d h_merkle : ℕ) : ℕ :=
  d * ((c_ots + 1) * 2 ^ h_merkle - 1)

/-- The parameter-set record that `do_search` allocates and fills for
an admitted combination (`p->h = h`, …, `p->ver_time = ...`), with
`h = h_merkle * d`. -/
def mkParamSet (sec_level w log_w h_merkle d a k : ℕ) : ParameterSet :=
  let wd := wdOf sec_level w log_w
  { h := h_merkle * d
    d := d
    a := a
    k := k
    w := w
    sig_size := hashSize sec_level * (1 + k * (a + 1) + d * (wd + h_merkle))
    sig_time := 3 + cost_hypertree (cost_ots sec_level w log_w) d h_merkle +
      k * cost_fors_tree a
    ver_time := 1 + k * (a + 1) + 1 + d * (wd * w / 2 + 1 + h_merkle) }

/-- The unsigned-wraparound pruning comparison `h < num_sig - 5` of
`do_search`: `num_sig` is `unsigned`, the literal `5` is promoted, and
the subtraction wraps modulo `2^32`; the signed `h` (always positive
and small here) is converted to `unsigned` for the comparison. -/
def wrapPrune (num_sig h : ℕ) : Prop :=
  h % 2 ^ 32 < (num_sig + (2 ^ 32 - 5)) % 2 ^ 32

instance (num_sig h : ℕ) : Decidable (wrapPrune num_sig h) := by
  unfold wrapPrune
  infer_instance

/-- Fuel-indexed model of the innermost loop of `do_search`
(`for (k=1; k<MAX_K; k++)`): stop when the combined hypertree and FORS
cost exceeds the budget, admit the parameter set when the (abstracted)
`check_sec_level` oracle `chk` accepts `(h, a, k)`.  Invoked with fuel
99 and `k = 1`, exactly covering `k = 1..99`. -/
def kLoop (chk : ℕ → ℕ → ℕ → Bool)
    (sec_level w log_w sign_op h_merkle d a : ℕ) :
    ℕ → ℕ → List ParameterSet
  | 0, _ => []
  | fuel + 1, k =>
    if cost_hypertree (cost_ots sec_level w log_w) d h_merkle +
        k * cost_fors_tree a > sign_op then []
    else
      (if chk (h_merkle * d) a k then
        [mkParamSet sec_level w log_w h_merkle d a k]
      else []) ++
        kLoop chk sec_level w log_w sign_op h_merkle d a fuel (k + 1)

/-- The FORS-height loop of `do_search` (`for (a=1; a<30; a++)`) with
the optional `a_restrict` filter. -/
def aLoop (chk : ℕ → ℕ → ℕ → Bool)
    (sec_level w log_w sign_op a_restrict h_merkle d : ℕ) :
    List ParameterSet :=
  ((List.range' 1 29).map (fun a =>
    if a_restrict ≠ 0 ∧ a ≠ a_restrict then []
    else kLoop chk sec_level w log_w sign_op h_merkle d a 99 1)).flatten

/-- Fuel-indexed model of the hypertree-depth loop of `do_search`
(`for (h = h_merkle, d = 1; h <= sec_level+30; h += h_merkle, d++)`)
with its breaks (`d >= 30`, hypertree cost at least the budget) and
continues (`d_restrict`, the wrapping `h < num_sig - 5` prune).
Invoked with fuel 30 and `d = 1`; the `d >= 30` break fires before the
fuel can run out. -/
def dLoop (chk : ℕ → ℕ → ℕ → Bool)
    (sec_level num_sig sign_op d_restrict a_restrict w log_w h_merkle : ℕ) :
    ℕ → ℕ → List ParameterSet
  | 0, _ => []
  | fuel + 1, d =>
    if h_merkle * d > sec_level + 30 then []
    else if d ≥ 30 then []
    else if d_restrict ≠ 0 ∧ d ≠ d_restrict then
      dLoop chk sec_level num_sig sign_op d_restrict a_restrict w log_w
        h_merkle fuel (d + 1)
    else if wrapPrune num_sig (h_merkle * d) then
      dLoop chk sec_level num_sig sign_op d_restrict a_restrict w log_w
        h_merkle fuel (d + 1)
    else if cost_hypertree (cost_ots sec_level w log_w) d h_merkle ≥ sign_op
    then []
    else
      aLoop chk sec_level w log_w sign_op a_restrict h_merkle d ++
        dLoop chk sec_level num_sig sign_op d_restrict a_restrict w log_w
          h_merkle fuel (d + 1)

/-- The per-layer Merkle-height loop of `do_search`
(`for (h_merkle = 2; h_merkle <= sec_level+20 && h_merkle < 32; h_merkle++)`)
with the optional `h_restrict` filter. -/
def hmLoop (chk : ℕ → ℕ → ℕ → Bool)
    (sec_level num_sig sign_op d_restrict h_restrict a_restrict w log_w : ℕ) :
    List ParameterSet :=
  (((List.range' 2 30).filter (fun hm => hm ≤ sec_level + 20)).map
    (fun h_merkle =>
      if h_restrict ≠ 0 ∧ h_merkle ≠ h_restrict then []
      else dLoop chk sec_level num_sig sign_op d_restrict a_restrict w log_w
        h_merkle 30 1)).flatten

/-- The Winternitz widths visited by `do_search`
(`for (w = 4, log_w = 2; w <= 256; w <<= 1, log_w++)`). -/
def wList : List (ℕ × ℕ) := [(4, 2), (8, 3), (16, 4), (32, 5), (64, 6), (128, 7), (256, 8)]

/-- Every parameter set admitted by the enumeration phase of
`do_search`, in generation order. -/
def allCands (chk : ℕ → ℕ → ℕ → Bool)
    (sec_level num_sig sign_op d_restrict h_restrict a_restrict : ℕ) :
    List ParameterSet :=
  (wList.map (fun wl =>
    hmLoop chk sec_level num_sig sign_op d_restrict h_restrict a_restrict
      wl.1 wl.2)).flatten

/-- Width class of a parameter set: 0 for the `w16_q` list, 1 for the
`w256_q` list (which also holds W=4), 2 for the `wother_q` list. -/
def classOf (p : ParameterSet) : ℕ :=
  if p.w = 16 then 0 else if p.w = 256 ∨ p.w = 4 then 1 else 2

/-- The class list (`w16_q`, `w256_q` or `wother_q`) that the
enumeration phase of `do_search` builds: candidates of that width
class, reversed because the C code pushes each new candidate onto the
head of its list. -/
def classQueue (chk : ℕ → ℕ → ℕ → Bool)
    (sec_level num_sig sign_op d_restrict h_restrict a_restrict c : ℕ) :
    List ParameterSet :=
  ((allCands chk sec_level num_sig sign_op d_restrict h_restrict
    a_restrict).filter (fun p => classOf p == c)).reverse

/-- First winner-choice step of the selection loop of `do_search`:
start with the head of `w16_q` (winner 0); switch to the head of
`w256_q` (winner 1) if the `w16_q` head is missing or the `w256_q` head
has strictly smaller signature size
(`if (!p || (w256_q && w256_q->sig_size < p->sig_size))`). -/
def pickStage1 (q0 q1 : List ParameterSet) : ℕ × Option ParameterSet :=
  match q0.head?, q1.head? with
  | none, b => (1, b)
  | some p0, none => (0, some p0)
  | some p0, some p1 =>
    if p1.sig_size < p0.sig_size then (1, some p1) else (0, some p0)

/-- The complete winner choice at the top of the selection loop of
`do_search`: after `pickStage1`, switch to the head of `wother_q`
(winner 2) if the current winner is missing or the `wother_q` head has
strictly smaller signature size. -/
def pickWinner (q0 q1 q2 : List ParameterSet) : ℕ × Option ParameterSet :=
  match pickStage1 q0 q1, q2.head? with
  | (_, none), c => (2, c)
  | (w, some p), none => (w, some p)
  | (w, some p), some p2 =>
    if p2.sig_size < p.sig_size then (2, some p2) else (w, some p)

/-- Pull the winner off of its list (the `switch (winner)` in
`do_search`). -/
def popAt (i : ℕ) (q0 q1 q2 : List ParameterSet) :
    List ParameterSet × List ParameterSet × List ParameterSet :=
  if i = 0 then (q0.tail, q1, q2)
  else if i = 1 then (q0, q1.tail, q2)
  else (q0, q1, q2.tail)

/-- Read component `i` of the `min_sec_level[3]` array. -/
def get3 (t : ℕ × ℕ × ℕ) (i : ℕ) : ℕ :=
  if i = 0 then t.1 else if i = 1 then t.2.1 else t.2.2

/-- Read component `i` of the `cutoff[3]` array. -/
def getc3 (c : Bool × Bool × Bool) (i : ℕ) : Bool :=
  if i = 0 then c.1 else if i = 1 then c.2.1 else c.2.2

/-- The update `for (j=winner; j<3; j++) if (overuse > min_sec_level[j])
min_sec_level[j] = overuse` of `do_search`. -/
def bump3 (t : ℕ × ℕ × ℕ) (i o : ℕ) : ℕ × ℕ × ℕ :=
  (if i ≤ 0 ∧ t.1 < o then o else t.1,
   if i ≤ 1 ∧ t.2.1 < o then o else t.2.1,
   if i ≤ 2 ∧ t.2.2 < o then o else t.2.2)

/-- The update `for (j=winner; j<3; j++) cutoff[j] |= do_cutoff` of
`do_search`. -/
def cut3 (c : Bool × Bool × Bool) (i : ℕ) (b : Bool) : Bool × Bool × Bool :=
  (if i ≤ 0 then c.1 || b else c.1,
   if i ≤ 1 then c.2.1 || b else c.2.1,
   if i ≤ 2 then c.2.2 || b else c.2.2)

/-- Fuel-indexed model of the selection loop of `do_search`
(`while (w16_q || w256_q || wother_q)`) producing the printed frontier
in acceptance order.  `ov p` abstracts the call
`compute_sigs_at_sec_level(test_sec_level, p->h, p->a, p->k)` (a
non-negative `int` in the C code).  Each iteration pops exactly one
element, so fuel equal to the total length of the three lists runs the
loop to completion. -/
def select (ov : ParameterSet → ℕ) (max_s : ℕ) :
    ℕ → List ParameterSet → List ParameterSet → List ParameterSet →
    ℕ × ℕ × ℕ → Bool × Bool × Bool → List ParameterSet
  | 0, _, _, _, _, _ => []
  | fuel + 1, q0, q1, q2, ml, ct =>
    match pickWinner q0 q1 q2 with
    | (_, none) => []
    | (i, some p) =>
      let qs := popAt i q0 q1 q2
      if getc3 ct i then select ov max_s fuel qs.1 qs.2.1 qs.2.2 ml ct
      else if ov p ≤ get3 ml i then
        select ov max_s fuel qs.1 qs.2.1 qs.2.2 ml ct
      else
        let do_cutoff := decide (max_s ≠ 0 ∧ ov p / 100 ≥ max_s)
        let ml' := bump3 ml i (ov p)
        let ct' := cut3 ct i do_cutoff
        p :: (if ct'.1 then []
          else select ov max_s fuel qs.1 qs.2.1 qs.2.2 ml' ct')

/-- The full `do_search` pipeline up to the list of parameter sets it
prints: enumerate, split into the three width-class lists, `my_sort`
each, then run the selection loop with empty overuse trackers and
cleared cutoffs.  `chk` abstracts `check_sec_level` and `ov` abstracts
`compute_sigs_at_sec_level` (both floating-point routines of
`gamma.c`). -/
def doSearchFrontier (chk : ℕ → ℕ → ℕ → Bool) (ov : ℕ → ℕ → ℕ → ℕ)
    (sec_level num_sig sign_op max_s d_restrict h_restrict a_restrict : ℕ) :
    List ParameterSet :=
  let q0 := my_sort (classQueue chk sec_level num_sig sign_op d_restrict
    h_restrict a_restrict 0)
  let q1 := my_sort (classQueue chk sec_level num_sig sign_op d_restrict
    h_restrict a_restrict 1)
  let q2 := my_sort (classQueue chk sec_level num_sig sign_op d_restrict
    h_restrict a_restrict 2)
  select (fun p => ov p.h p.a p.k) max_s (q0.length + q1.length + q2.length)
    q0 q1 q2 (0, 0, 0) (false, false, false)

theorem mem_kLoop {chk : ℕ → ℕ → ℕ → Bool}
    {sec_level w log_w sign_op h_merkle d a : ℕ} :
    ∀ (fuel k0 : ℕ) {p : ParameterSet},
      p ∈ kLoop chk sec_level w log_w sign_op h_merkle d a fuel k0 →
      ∃ k, k0 ≤ k ∧
        cost_hypertree (cost_ots sec_level w log_w) d h_merkle +
          k * cost_fors_tree a ≤ sign_op ∧
        chk (h_merkle * d) a k = true ∧
        p = mkParamSet sec_level w log_w h_merkle d a k
  | 0, k0, p, hp => by simp [kLoop] at hp
  | fuel + 1, k0, p, hp => by
    rw [kLoop] at hp
    split at hp
    · simp at hp
    · next hcost =>
      rcases List.mem_append.mp hp with hp1 | hp2
      · split at hp1
        · next hchk =>
          refine ⟨k0, le_rfl, by omega, hchk, ?_⟩
          simpa using hp1
        · simp at hp1
      · obtain ⟨k, hk, hrest⟩ := mem_kLoop fuel (k0 + 1) hp2
        exact ⟨k, by omega, hrest⟩

theorem mem_aLoop {chk : ℕ → ℕ → ℕ → Bool}
    {sec_level w log_w sign_op a_restrict h_merkle d : ℕ} {p : ParameterSet}
    (hp : p ∈ aLoop chk sec_level w log_w sign_op a_restrict h_merkle d) :
    ∃ a, 1 ≤ a ∧ a ≤ 29 ∧
      p ∈ kLoop chk sec_level w log_w sign_op h_merkle d a 99 1 := by
  unfold aLoop at hp
  rcases List.mem_flatten.mp hp with ⟨l, hl, hpl⟩
  rcases List.mem_map.mp hl with ⟨a, ha, rfl⟩
  have ha' : 1 ≤ a ∧ a ≤ 29 := by
    rcases List.mem_range'_1.mp ha with ⟨h1, h2⟩
    omega
  split at hpl
  · simp at hpl
  · exact ⟨a, ha'.1, ha'.2, hpl⟩

theorem mem_dLoop {chk : ℕ → ℕ → ℕ → Bool}
    {sec_level num_sig sign_op d_restrict a_restrict w log_w h_merkle : ℕ} :
    ∀ (fuel d0 : ℕ) {p : ParameterSet},
      p ∈ dLoop chk sec_level num_sig sign_op d_restrict a_restrict w log_w
        h_merkle fuel d0 →
      ∃ d, d0 ≤ d ∧ h_merkle * d ≤ sec_level + 30 ∧ d ≤ 29 ∧
        cost_hypertree (cost_ots sec_level w log_w) d h_merkle < sign_op ∧
        p ∈ aLoop chk sec_level w log_w sign_op a_restrict h_merkle d
  | 0, d0, p, hp => by simp [dLoop] at hp
  | fuel + 1, d0, p, hp => by
    rw [dLoop] at hp
    split at hp
    · simp at hp
    · next hguard =>
      split at hp
      · simp at hp
      · next hd30 =>
        split at hp
        · obtain ⟨d, hd, hrest⟩ := mem_dLoop fuel (d0 + 1) hp
          exact ⟨d, by omega, hrest⟩
        · split at hp
          · obtain ⟨d, hd, hrest⟩ := mem_dLoop fuel (d0 + 1) hp
            exact ⟨d, by omega, hrest⟩
          · split at hp
            · simp at hp
            · next hcost =>
              rcases List.mem_append.mp hp with hp1 | hp2
              · exact ⟨d0, le_rfl, by omega, by omega, by omega, hp1⟩
              · obtain ⟨d, hd, hrest⟩ := mem_dLoop fuel (d0 + 1) hp2
                exact ⟨d, by omega, hrest⟩

theorem mem_hmLoop {chk : ℕ → ℕ → ℕ → Bool}
    {sec_level num_sig sign_op d_restrict h_restrict a_restrict w log_w : ℕ}
    {p : ParameterSet}
    (hp : p ∈ hmLoop chk sec_level num_sig sign_op d_restrict h_restrict
      a_restrict w log_w) :
    ∃ h_merkle, 2 ≤ h_merkle ∧ h_merkle ≤ 31 ∧ h_merkle ≤ sec_level + 20 ∧
      p ∈ dLoop chk sec_level num_sig sign_op d_restrict a_restrict w log_w
        h_merkle 30 1 := by
  unfold hmLoop at hp
  rcases List.mem_flatten.mp hp with ⟨l, hl, hpl⟩
  rcases List.mem_map.mp hl with ⟨hm, hhm, rfl⟩
  rcases List.mem_filter.mp hhm with ⟨hr, hle⟩
  rcases List.mem_range'_1.mp hr with ⟨h1, h2⟩
  split at hpl
  · simp at hpl
  · exact ⟨hm, by omega, by omega, by simpa using hle, hpl⟩

/-- Full provenance of an enumerated candidate: every element of
`allCands` is the record built by `mkParamSet` from loop indices that
passed every bound, the budget test and the (abstracted) security
check. -/
theorem mem_allCands_spec {chk : ℕ → ℕ → ℕ → Bool}
    {sec_level num_sig sign_op d_restrict h_restrict a_restrict : ℕ}
    {p : ParameterSet}
    (hp : p ∈ allCands chk sec_level num_sig sign_op d_restrict h_restrict
      a_restrict) :
    ∃ w log_w h_merkle d a k, (w, log_w) ∈ wList ∧
      2 ≤ h_merkle ∧ h_merkle ≤ 31 ∧ 1 ≤ d ∧ d ≤ 29 ∧
      1 ≤ a ∧ a ≤ 29 ∧ 1 ≤ k ∧
      cost_hypertree (cost_ots sec_level w log_w) d h_merkle +
        k * cost_fors_tree a ≤ sign_op ∧
      chk (h_merkle * d) a k = true ∧
      p = mkParamSet sec_level w log_w h_merkle d a k := by
  unfold allCands at hp
  rcases List.mem_flatten.mp hp with ⟨l, hl, hpl⟩
  rcases List.mem_map.mp hl with ⟨wl, hwl, rfl⟩
  obtain ⟨hm, hm2, hm31, _, hpd⟩ := mem_hmLoop hpl
  obtain ⟨d, hd1, _, hd29, _, hpa⟩ := mem_dLoop 30 1 hpd
  obtain ⟨a, ha1, ha29, hpk⟩ := mem_aLoop hpa
  obtain ⟨k, hk1, hcost, hchk, rfl⟩ := mem_kLoop 99 1 hpk
  exact ⟨wl.1, wl.2, hm, d, a, k, by simpa using hwl, hm2, hm31, hd1, hd29,
    ha1, ha29, hk1, hcost, hchk, rfl⟩

theorem pickWinner_spec :
    ∀ {q0 q1 q2 : List ParameterSet} {i : ℕ} {p : ParameterSet},
      pickWinner q0 q1 q2 = (i, some p) →
      (i = 0 ∧ q0 = p :: q0.tail) ∨ (i = 1 ∧ q1 = p :: q1.tail) ∨
        (i = 2 ∧ q2 = p :: q2.tail) := by
  intro q0 q1 q2 i p h
  cases q0 <;> cases q1 <;> cases q2 <;>
    simp only [pickWinner, pickStage1, List.head?_nil, List.head?_cons] at h <;>
    (try split_ifs at h) <;> (try simp at h) <;> (try split_ifs at h) <;>
    simp_all

theorem popAt_sub (i : ℕ) (q0 q1 q2 : List ParameterSet) :
    (popAt i q0 q1 q2).1 ⊆ q0 ∧ (popAt i q0 q1 q2).2.1 ⊆ q1 ∧
      (popAt i q0 q1 q2).2.2 ⊆ q2 := by
  unfold popAt
  split_ifs <;>
    refine ⟨?_, ?_, ?_⟩ <;>
    first
      | exact (List.tail_sublist _).subset
      | exact fun x hx => hx

theorem select_subset (ov : ParameterSet → ℕ) (max_s : ℕ) :
    ∀ (fuel : ℕ) (q0 q1 q2 : List ParameterSet) (ml : ℕ × ℕ × ℕ)
      (ct : Bool × Bool × Bool) {x : ParameterSet},
      x ∈ select ov max_s fuel q0 q1 q2 ml ct → x ∈ q0 ∨ x ∈ q1 ∨ x ∈ q2
  | 0, _, _, _, _, _, _, hx => by simp [select] at hx
  | fuel + 1, q0, q1, q2, ml, ct, x, hx => by
    rw [select] at hx
    split at hx
    · simp at hx
    · next i p heq =>
      obtain ⟨hs0, hs1, hs2⟩ := popAt_sub i q0 q1 q2
      have hrec : ∀ {ml' ct'},
          x ∈ select ov max_s fuel (popAt i q0 q1 q2).1
            (popAt i q0 q1 q2).2.1 (popAt i q0 q1 q2).2.2 ml' ct' →
          x ∈ q0 ∨ x ∈ q1 ∨ x ∈ q2 := by
        intro ml' ct' hx'
        rcases select_subset ov max_s fuel _ _ _ ml' ct' hx' with h | h | h
        · exact Or.inl (hs0 h)
        · exact Or.inr (Or.inl (hs1 h))
        · exact Or.inr (Or.inr (hs2 h))
      have hpmem : p ∈ q0 ∨ p ∈ q1 ∨ p ∈ q2 := by
        rcases pickWinner_spec heq with ⟨_, hq⟩ | ⟨_, hq⟩ | ⟨_, hq⟩
        · exact Or.inl (by rw [hq]; exact List.mem_cons_self _ _)
        · exact Or.inr (Or.inl (by rw [hq]; exact List.mem_cons_self _ _))
        · exact Or.inr (Or.inr (by rw [hq]; exact List.mem_cons_self _ _))
      split at hx
      · exact hrec hx
      · split at hx
        · exact hrec hx
        · rcases List.mem_cons.mp hx with rfl | hx'
          · exact hpmem
          · split at hx'
            · simp at hx'
            · exact hrec hx'

theorem doSearchFrontier_subset {chk : ℕ → ℕ → ℕ → Bool}
    {ov : ℕ → ℕ → ℕ → ℕ}
    {sec_level num_sig sign_op max_s d_restrict h_restrict a_restrict : ℕ}
    {x : ParameterSet}
    (hx : x ∈ doSearchFrontier chk ov sec_level num_sig sign_op max_s
      d_restrict h_restrict a_restrict) :
    x ∈ allCands chk sec_level num_sig sign_op d_restrict h_restrict
      a_restrict := by
  unfold doSearchFrontier at hx
  have hmem := select_subset _ _ _ _ _ _ _ _ hx
  have hq : ∀ c, x ∈ my_sort (classQueue chk sec_level num_sig sign_op
      d_restrict h_restrict a_restrict c) →
      x ∈ allCands chk sec_level num_sig sign_op d_restrict h_restrict
        a_restrict := by
    intro c hxc
    have := (my_sort_perm _).mem_iff.mp hxc
    unfold classQueue at this
    rw [List.mem_reverse] at this
    exact (List.mem_filter.mp this).1
  rcases hmem with h | h | h
  · exact hq 0 h
  · exact hq 1 h
  · exact hq 2 h

/-- Claim C4, amended: every parameter set that `do_search` puts on its
output frontier has signing cost `sig_time` at most `sign_op + 3`
(not `sign_op`): the enumerator admits any candidate whose hypertree
plus FORS construction cost is at most the budget `sign_op`, and then
records `sig_time = 3 + cost_hypertree + k*cost_fors_tree`, so the
recorded cost can exceed the budget by exactly the 3 hashes charged for
`PRF_msg`, `H_msg` and the FORS-root combine. -/
theorem claim_C4_frontier_sig_time_bound
    (chk : ℕ → ℕ → ℕ → Bool) (ov : ℕ → ℕ → ℕ → ℕ)
    (sec_level num_sig sign_op max_s d_restrict h_restrict a_restrict : ℕ)
    (p : ParameterSet)
    (hp : p ∈ doSearchFrontier chk ov sec_level num_sig sign_op max_s
      d_restrict h_restrict a_restrict) :
    p.sig_time ≤ sign_op + 3 := by
  obtain ⟨w, log_w, hm, d, a, k, _, _, _, _, _, _, _, _, hcost, _, rfl⟩ :=
    mem_allCands_spec (doSearchFrontier_subset hp)
  simp only [mkParamSet]
  omega

/-- Claim C4, counterexample: with the feasibility check abstracted as
an always-true oracle (the C check is floating point), the invocation
`do_search(sec_level=8, num_sig=5, sign_op=29694, d=1, h=10, a=10)`
admits exactly the W=4 candidate whose construction cost is exactly the
budget 29694, and its recorded signing cost 29697 exceeds the budget,
refuting the claim that every frontier entry has `sig_time ≤ sign_op`. -/
theorem claim_C4_counterexample :
    ¬ ∀ p ∈ doSearchFrontier (fun _ _ _ => true) (fun _ _ _ => 1)
      8 5 29694 0 1 10 10, p.sig_time ≤ 29694 := by
  decide

/-- Witness for the amended claim C4 at a concrete frontier entry. -/
theorem claim_C4_witness :
    mkParamSet 8 4 2 10 1 10 1 ∈ doSearchFrontier (fun _ _ _ => true)
      (fun _ _ _ => 1) 8 5 29694 0 1 10 10 ∧
    (mkParamSet 8 4 2 10 1 10 1).sig_time ≤ 29694 + 3 :=
  ⟨by decide,
    claim_C4_frontier_sig_time_bound (fun _ _ _ => true) (fun _ _ _ => 1)
      8 5 29694 0 1 10 10 (mkParamSet 8 4 2 10 1 10 1) (by decide)⟩

/-- Claim C5: every admitted parameter set records signature size
`hash_size * (1 + k*(a+1) + d*(wd + h_merkle))` and signing cost
`3 + cost_hypertree + k*cost_fors_tree`, where `wd`, `cost_hypertree`
and `cost_fors_tree` are the enumerator's own derived quantities and
`h_merkle = h / d` is the per-layer Merkle height. -/
theorem claim_C5_recorded_size_and_cost
    (chk : ℕ → ℕ → ℕ → Bool)
    (sec_level num_sig sign_op d_restrict h_restrict a_restrict : ℕ)
    (p : ParameterSet)
    (hp : p ∈ allCands chk sec_level num_sig sign_op d_restrict h_restrict
      a_restrict) :
    p.sig_size = hashSize sec_level *
      (1 + p.k * (p.a + 1) + p.d * (wdOf sec_level p.w (ilog2 p.w) + p.h / p.d)) ∧
    p.sig_time = 3 +
      cost_hypertree (cost_ots sec_level p.w (ilog2 p.w)) p.d (p.h / p.d) +
      p.k * cost_fors_tree p.a := by
  obtain ⟨w, log_w, hm, d, a, k, hwl, _, _, hd1, _, _, _, _, _, _, rfl⟩ :=
    mem_allCands_spec hp
  have hlog : ilog2 w = log_w := by
    simp only [wList, List.mem_cons, List.not_mem_nil, or_false] at hwl
    rcases hwl with h | h | h | h | h | h | h <;>
      · injection h with h1 h2
        subst h1; subst h2
        rfl
  have hdiv : hm * d / d = hm := Nat.mul_div_cancel hm (by omega)
  constructor <;> simp [mkParamSet, hlog, hdiv]

/-- Witness for claim C5 at a concrete admitted parameter set. -/
theorem claim_C5_witness :
    mkParamSet 8 4 2 10 1 10 1 ∈ allCands (fun _ _ _ => true)
      8 5 29694 1 10 10 ∧
    (mkParamSet 8 4 2 10 1 10 1).sig_size = hashSize 8 *
      (1 + 1 * (10 + 1) + 1 * (wdOf 8 4 (ilog2 4) + 10 / 1)) :=
  ⟨by decide,
    by
      have h := claim_C5_recorded_size_and_cost (fun _ _ _ => true)
        8 5 29694 1 10 10 (mkParamSet 8 4 2 10 1 10 1) (by decide)
      simpa [mkParamSet] using h.1⟩

theorem flatten_nil_of_forall {α : Type} :
    ∀ L : List (List α), (∀ l ∈ L, l = []) → L.flatten = []
  | [], _ => rfl
  | l :: L, h => by
    rw [List.flatten_cons, h l (List.mem_cons_self _ _), List.nil_append]
    exact flatten_nil_of_forall L (fun l' hl' => h l' (List.mem_cons_of_mem _ hl'))

theorem dLoop_eq_nil_of_small_num_sig {chk : ℕ → ℕ → ℕ → Bool}
    {sec_level num_sig sign_op d_restrict a_restrict w log_w h_merkle : ℕ}
    (h1 : 1 ≤ num_sig) (h4 : num_sig ≤ 4) (hhm : h_merkle ≤ 31) :
    ∀ (fuel d0 : ℕ),
      dLoop chk sec_level num_sig sign_op d_restrict a_restrict w log_w
        h_merkle fuel d0 = []
  | 0, _ => rfl
  | fuel + 1, d0 => by
    rw [dLoop]
    split_ifs with hg hd hr hw hc
    · rfl
    · rfl
    · exact dLoop_eq_nil_of_small_num_sig h1 h4 hhm fuel (d0 + 1)
    · exact dLoop_eq_nil_of_small_num_sig h1 h4 hhm fuel (d0 + 1)
    · rfl
    · exfalso
      apply hw
      have hmul : h_merkle * d0 ≤ 31 * 29 :=
        Nat.mul_le_mul hhm (by omega)
      unfold wrapPrune
      omega

theorem hmLoop_eq_nil_of_small_num_sig {chk : ℕ → ℕ → ℕ → Bool}
    {sec_level num_sig sign_op d_restrict h_restrict a_restrict w log_w : ℕ}
    (h1 : 1 ≤ num_sig) (h4 : num_sig ≤ 4) :
    hmLoop chk sec_level num_sig sign_op d_restrict h_restrict a_restrict
      w log_w = [] := by
  unfold hmLoop
  apply flatten_nil_of_forall
  intro l hl
  rcases List.mem_map.mp hl with ⟨hm, hhm, rfl⟩
  rcases List.mem_filter.mp hhm with ⟨hr', _⟩
  rcases List.mem_range'_1.mp hr' with ⟨_, h2⟩
  split_ifs
  · rfl
  · exact dLoop_eq_nil_of_small_num_sig h1 h4 (by omega) 30 1

theorem allCands_eq_nil_of_small_num_sig {chk : ℕ → ℕ → ℕ → Bool}
    {sec_level num_sig sign_op d_restrict h_restrict a_restrict : ℕ}
    (h1 : 1 ≤ num_sig) (h4 : num_sig ≤ 4) :
    allCands chk sec_level num_sig sign_op d_restrict h_restrict
      a_restrict = [] := by
  unfold allCands
  apply flatten_nil_of_forall
  intro l hl
  rcases List.mem_map.mp hl with ⟨wl, _, rfl⟩
  exact hmLoop_eq_nil_of_small_num_sig h1 h4

/-- Claim C10: when the requested log2 signature count `num_sig` is
between 1 and 4, the pruning comparison `h < num_sig - 5` of
`do_search` is evaluated in unsigned arithmetic, `num_sig - 5` wraps
around to at least `2^32 - 4`, every candidate hypertree height is
pruned, so the enumerator admits no parameter set and the output
frontier is empty; for `num_sig ≥ 5` (below the `unsigned` range) the
comparison coincides with the ordinary `h < num_sig - 5` and no
wraparound pruning occurs. -/
theorem claim_C10_wraparound_prune (chk : ℕ → ℕ → ℕ → Bool)
    (ov : ℕ → ℕ → ℕ → ℕ)
    (sec_level num_sig sign_op max_s d_restrict h_restrict a_restrict : ℕ) :
    (1 ≤ num_sig → num_sig ≤ 4 →
      allCands chk sec_level num_sig sign_op d_restrict h_restrict
        a_restrict = [] ∧
      doSearchFrontier chk ov sec_level num_sig sign_op max_s d_restrict
        h_restrict a_restrict = []) ∧
    (5 ≤ num_sig → num_sig ≤ 2 ^ 31 → ∀ h, h ≤ 2 ^ 31 →
      (wrapPrune num_sig h ↔ h < num_sig - 5)) := by
  constructor
  · intro h1 h4
    have hall : allCands chk sec_level num_sig sign_op d_restrict
        h_restrict a_restrict = [] :=
      allCands_eq_nil_of_small_num_sig h1 h4
    refine ⟨hall, ?_⟩
    unfold doSearchFrontier classQueue
    rw [hall]
    rfl
  · intro h5 h31 h hh
    unfold wrapPrune
    omega

/-- Witness for claim C10: at `num_sig = 2` the enumeration and the
frontier are empty, and at `num_sig = 20` the pruning comparison is the
ordinary one. -/
theorem claim_C10_witness :
    ((1 : ℕ) ≤ 2 ∧ (2 : ℕ) ≤ 4 ∧
      allCands (fun _ _ _ => true) 128 2 100000 0 0 0 = [] ∧
      doSearchFrontier (fun _ _ _ => true) (fun _ _ _ => 0)
        128 2 100000 0 0 0 0 = []) ∧
    ((5 : ℕ) ≤ 20 ∧ (20 : ℕ) ≤ 2 ^ 31 ∧ (10 : ℕ) ≤ 2 ^ 31 ∧
      (wrapPrune 20 10 ↔ (10 : ℕ) < 20 - 5)) := by
  have h := claim_C10_wraparound_prune (fun _ _ _ => true) (fun _ _ _ => 0)
    128 2 100000 0 0 0 0
  have h' := claim_C10_wraparound_prune (fun _ _ _ => true) (fun _ _ _ => 0)
    128 20 100000 0 0 0 0
  exact ⟨⟨by decide, by decide, (h.1 (by decide) (by decide)).1,
      (h.1 (by decide) (by decide)).2⟩,
    ⟨by decide, by norm_num, by norm_num,
      h'.2 (by decide) (by norm_num) 10 (by norm_num)⟩⟩

theorem pairwise_head_le {x : ParameterSet} {l : List ParameterSet}
    (h : (x :: l).Pairwise sizeLE) : ∀ z ∈ x :: l, x.sig_size ≤ z.sig_size := by
  intro z hz
  rcases List.mem_cons.mp hz with rfl | hz'
  · exact le_rfl
  · exact (List.pairwise_cons.mp h).1 z hz'

theorem pickStage1_none {q0 q1 : List ParameterSet} {j : ℕ}
    (h : pickStage1 q0 q1 = (j, none)) : q0 = [] ∧ q1 = [] := by
  cases q0 <;> cases q1 <;>
    simp only [pickStage1, List.head?_nil, List.head?_cons] at h <;>
    (try split_ifs at h) <;> simp_all

theorem pickStage1_min {q0 q1 : List ParameterSet} {j : ℕ} {p : ParameterSet}
    (h0 : q0.Pairwise sizeLE) (h1 : q1.Pairwise sizeLE)
    (h : pickStage1 q0 q1 = (j, some p)) :
    (∀ x ∈ q0, p.sig_size ≤ x.sig_size) ∧
      (∀ x ∈ q1, p.sig_size ≤ x.sig_size) := by
  rcases q0 with _ | ⟨x0, t0⟩ <;> rcases q1 with _ | ⟨x1, t1⟩ <;>
    simp only [pickStage1, List.head?_nil, List.head?_cons] at h
  · simp at h
  · obtain ⟨rfl, rfl⟩ : j = 1 ∧ x1 = p := by simpa [eq_comm] using h
    exact ⟨by simp, pairwise_head_le h1⟩
  · obtain ⟨rfl, rfl⟩ : j = 0 ∧ x0 = p := by simpa [eq_comm] using h
    exact ⟨pairwise_head_le h0, by simp⟩
  · split_ifs at h with hc
    · obtain ⟨rfl, rfl⟩ : j = 1 ∧ x1 = p := by simpa [eq_comm] using h
      refine ⟨?_, pairwise_head_le h1⟩
      intro x hx
      exact le_trans (le_of_lt hc) (pairwise_head_le h0 x hx)
    · obtain ⟨rfl, rfl⟩ : j = 0 ∧ x0 = p := by simpa [eq_comm] using h
      refine ⟨pairwise_head_le h0, ?_⟩
      intro x hx
      exact le_trans (by omega) (pairwise_head_le h1 x hx)

theorem pickWinner_min {q0 q1 q2 : List ParameterSet} {i : ℕ}
    {p : ParameterSet}
    (h0 : q0.Pairwise sizeLE) (h1 : q1.Pairwise sizeLE)
    (h2 : q2.Pairwise sizeLE)
    (heq : pickWinner q0 q1 q2 = (i, some p)) :
    ∀ x, (x ∈ q0 ∨ x ∈ q1 ∨ x ∈ q2) → p.sig_size ≤ x.sig_size := by
  unfold pickWinner at heq
  rcases hs : pickStage1 q0 q1 with ⟨j, op⟩
  rw [hs] at heq
  cases op with
  | none =>
    obtain ⟨rfl, rfl⟩ := pickStage1_none hs
    rcases q2 with _ | ⟨x2, t2⟩ <;>
      simp only [List.head?_nil, List.head?_cons] at heq
    · simp at heq
    · obtain ⟨rfl, rfl⟩ : i = 2 ∧ x2 = p := by simpa [eq_comm] using heq
      intro x hx
      rcases hx with hx | hx | hx
      · simp at hx
      · simp at hx
      · exact pairwise_head_le h2 x hx
  | some pw =>
    have hstage := pickStage1_min h0 h1 hs
    rcases q2 with _ | ⟨x2, t2⟩ <;>
      simp only [List.head?_nil, List.head?_cons] at heq
    · obtain ⟨rfl, rfl⟩ : j = i ∧ pw = p := by simpa using heq
      intro x hx
      rcases hx with hx | hx | hx
      · exact hstage.1 x hx
      · exact hstage.2 x hx
      · simp at hx
    · split_ifs at heq with hc
      · obtain ⟨rfl, rfl⟩ : i = 2 ∧ x2 = p := by simpa [eq_comm] using heq
        intro x hx
        rcases hx with hx | hx | hx
        · exact le_trans (le_of_lt hc) (hstage.1 x hx)
        · exact le_trans (le_of_lt hc) (hstage.2 x hx)
        · exact pairwise_head_le h2 x hx
      · obtain ⟨rfl, rfl⟩ : j = i ∧ pw = p := by simpa using heq
        intro x hx
        rcases hx with hx | hx | hx
        · exact hstage.1 x hx
        · exact hstage.2 x hx
        · rcases List.mem_cons.mp hx with rfl | hx'
          · omega
          · exact le_trans (by omega) (pairwise_head_le h2 x (by simp [hx']))

theorem select_pairwise_size (ov : ParameterSet → ℕ) (max_s : ℕ) :
    ∀ (fuel : ℕ) (q0 q1 q2 : List ParameterSet) (ml : ℕ × ℕ × ℕ)
      (ct : Bool × Bool × Bool),
      q0.Pairwise sizeLE → q1.Pairwise sizeLE → q2.Pairwise sizeLE →
      (select ov max_s fuel q0 q1 q2 ml ct).Pairwise sizeLE
  | 0, _, _, _, _, _, _, _, _ => by simp [select]
  | fuel + 1, q0, q1, q2, ml, ct, h0, h1, h2 => by
    rw [select]
    split
    · simp
    · next i p heq =>
      have htails : (popAt i q0 q1 q2).1.Pairwise sizeLE ∧
          (popAt i q0 q1 q2).2.1.Pairwise sizeLE ∧
          (popAt i q0 q1 q2).2.2.Pairwise sizeLE := by
        rcases pickWinner_spec heq with ⟨rfl, hq⟩ | ⟨rfl, hq⟩ | ⟨rfl, hq⟩ <;>
          simp only [popAt, if_pos, if_neg, reduceIte] <;>
          refine ⟨?_, ?_, ?_⟩ <;>
          first
            | assumption
            | exact (List.pairwise_cons.mp (hq ▸ ‹_›)).2
            | exact List.Pairwise.tail ‹_›
      have hrec : ∀ (ml' : ℕ × ℕ × ℕ) (ct' : Bool × Bool × Bool),
          (select ov max_s fuel (popAt i q0 q1 q2).1 (popAt i q0 q1 q2).2.1
            (popAt i q0 q1 q2).2.2 ml' ct').Pairwise sizeLE :=
        fun ml' ct' => select_pairwise_size ov max_s fuel _ _ _ ml' ct'
          htails.1 htails.2.1 htails.2.2
      split
      · exact hrec ml ct
      · split
        · exact hrec ml ct
        · refine List.pairwise_cons.mpr ⟨?_, ?_⟩
          · intro x hx
            split at hx
            · simp at hx
            · have hx' := select_subset ov max_s fuel _ _ _ _ _ hx
              obtain ⟨hs0, hs1, hs2⟩ := popAt_sub i q0 q1 q2
              have hxq : x ∈ q0 ∨ x ∈ q1 ∨ x ∈ q2 := by
                rcases hx' with h | h | h
                · exact Or.inl (hs0 h)
                · exact Or.inr (Or.inl (hs1 h))
                · exact Or.inr (Or.inr (hs2 h))
              exact pickWinner_min h0 h1 h2 heq x hxq
          · split
            · simp
            · exact hrec _ _

theorem pickWinner_later {q0 q1 q2 : List ParameterSet} {i : ℕ}
    {p : ParameterSet} (heq : pickWinner q0 q1 q2 = (i, some p)) :
    (1 ≤ i → ∀ x0, q0.head? = some x0 → p.sig_size < x0.sig_size) ∧
    (i = 2 → ∀ x1, q1.head? = some x1 → p.sig_size < x1.sig_size) := by
  rcases q0 with _ | ⟨x0, t0⟩ <;> rcases q1 with _ | ⟨x1, t1⟩ <;>
    rcases q2 with _ | ⟨x2, t2⟩ <;>
    simp only [pickWinner, pickStage1, List.head?_nil, List.head?_cons] at heq <;>
    (try split_ifs at heq) <;> (try simp at heq) <;> (try split_ifs at heq) <;>
    simp_all <;> omega

/-- Claim C6: the output frontier produced by the ranking pass is in
smallest-signature-first order (later entries never have strictly
smaller signature size than earlier ones), and in every selection step
a later-checked width class's head is popped before an easier class's
head only when its signature size is strictly smaller. -/
theorem claim_C6_frontier_size_order (chk : ℕ → ℕ → ℕ → Bool)
    (ov : ℕ → ℕ → ℕ → ℕ)
    (sec_level num_sig sign_op max_s d_restrict h_restrict a_restrict : ℕ) :
    (doSearchFrontier chk ov sec_level num_sig sign_op max_s d_restrict
      h_restrict a_restrict).Pairwise sizeLE ∧
    (∀ (q0 q1 q2 : List ParameterSet) (i : ℕ) (p : ParameterSet),
      pickWinner q0 q1 q2 = (i, some p) →
      (1 ≤ i → ∀ x0, q0.head? = some x0 → p.sig_size < x0.sig_size) ∧
      (i = 2 → ∀ x1, q1.head? = some x1 → p.sig_size < x1.sig_size)) := by
  constructor
  · exact select_pairwise_size _ _ _ _ _ _ _ _
      ((my_sort_sorted _).imp fun h => sortLE_sizeLE h)
      ((my_sort_sorted _).imp fun h => sortLE_sizeLE h)
      ((my_sort_sorted _).imp fun h => sortLE_sizeLE h)
  · intro q0 q1 q2 i p heq
    exact pickWinner_later heq

/-- Witness for claim C6: the hardest-class head (signature size 90)
wins over the W=16 head (signature size 100) precisely because its
signature is strictly smaller. -/
theorem claim_C6_witness :
    pickWinner [⟨0, 0, 0, 0, 16, 100, 0, 0⟩] []
      [⟨0, 0, 0, 0, 8, 90, 0, 0⟩] = (2, some ⟨0, 0, 0, 0, 8, 90, 0, 0⟩) ∧
    (1 : ℕ) ≤ 2 ∧
    (ParameterSet.sig_size ⟨0, 0, 0, 0, 8, 90, 0, 0⟩ <
      ParameterSet.sig_size ⟨0, 0, 0, 0, 16, 100, 0, 0⟩) :=
  ⟨by decide, by decide,
    ((claim_C6_frontier_size_order (fun _ _ _ => true) (fun _ _ _ => 0)
      0 0 0 0 0 0 0).2 [⟨0, 0, 0, 0, 16, 100, 0, 0⟩] []
      [⟨0, 0, 0, 0, 8, 90, 0, 0⟩] 2 ⟨0, 0, 0, 0, 8, 90, 0, 0⟩
      (by decide)).1 (by decide) ⟨0, 0, 0, 0, 16, 100, 0, 0⟩ rfl⟩

theorem classOf_le_two (p : ParameterSet) : classOf p ≤ 2 := by
  unfold classOf
  split_ifs <;> omega

theorem bump3_ge_o (ml : ℕ × ℕ × ℕ) {i j : ℕ} (o : ℕ) (hij : i ≤ j)
    (hj : j ≤ 2) : o ≤ get3 (bump3 ml i o) j := by
  unfold get3 bump3
  split_ifs <;> simp_all <;> omega

theorem bump3_ge_old (ml : ℕ × ℕ × ℕ) (i o j : ℕ) :
    get3 ml j ≤ get3 (bump3 ml i o) j := by
  unfold get3 bump3
  split_ifs <;> simp_all <;> omega

theorem select_class_overuse (ov : ParameterSet → ℕ) (max_s : ℕ) :
    ∀ (fuel : ℕ) (q0 q1 q2 : List ParameterSet) (ml : ℕ × ℕ × ℕ)
      (ct : Bool × Bool × Bool),
      (∀ p ∈ q0, classOf p = 0) → (∀ p ∈ q1, classOf p = 1) →
      (∀ p ∈ q2, classOf p = 2) →
      (select ov max_s fuel q0 q1 q2 ml ct).Pairwise
          (fun x y => classOf x ≤ classOf y → ov x < ov y) ∧
        ∀ x ∈ select ov max_s fuel q0 q1 q2 ml ct,
          get3 ml (classOf x) < ov x
  | 0, _, _, _, _, _, _, _, _ => by simp [select]
  | fuel + 1, q0, q1, q2, ml, ct, hc0, hc1, hc2 => by
    rw [select]
    split
    · simp
    · next i p heq =>
      obtain ⟨hs0, hs1, hs2⟩ := popAt_sub i q0 q1 q2
      have hc0' : ∀ x ∈ (popAt i q0 q1 q2).1, classOf x = 0 :=
        fun x hx => hc0 x (hs0 hx)
      have hc1' : ∀ x ∈ (popAt i q0 q1 q2).2.1, classOf x = 1 :=
        fun x hx => hc1 x (hs1 hx)
      have hc2' : ∀ x ∈ (popAt i q0 q1 q2).2.2, classOf x = 2 :=
        fun x hx => hc2 x (hs2 hx)
      have hclp : classOf p = i := by
        rcases pickWinner_spec heq with ⟨rfl, hq⟩ | ⟨rfl, hq⟩ | ⟨rfl, hq⟩
        · exact hc0 p (by rw [hq]; exact List.mem_cons_self _ _)
        · exact hc1 p (by rw [hq]; exact List.mem_cons_self _ _)
        · exact hc2 p (by rw [hq]; exact List.mem_cons_self _ _)
      have hIH : ∀ (ml' : ℕ × ℕ × ℕ) (ct' : Bool × Bool × Bool),
          (select ov max_s fuel (popAt i q0 q1 q2).1 (popAt i q0 q1 q2).2.1
            (popAt i q0 q1 q2).2.2 ml' ct').Pairwise
              (fun x y => classOf x ≤ classOf y → ov x < ov y) ∧
            ∀ x ∈ select ov max_s fuel (popAt i q0 q1 q2).1
              (popAt i q0 q1 q2).2.1 (popAt i q0 q1 q2).2.2 ml' ct',
              get3 ml' (classOf x) < ov x :=
        fun ml' ct' => select_class_overuse ov max_s fuel _ _ _ ml' ct'
          hc0' hc1' hc2'
      split
      · exact hIH ml ct
      · split
        · exact hIH ml ct
        · next hle =>
          have hgt : get3 ml i < ov p := by omega
          refine ⟨List.pairwise_cons.mpr ⟨?_, ?_⟩, ?_⟩
          · intro y hy hcl
            split at hy
            · simp at hy
            · have h1 := (hIH (bump3 ml i (ov p)) _).2 y hy
              have h2 : ov p ≤ get3 (bump3 ml i (ov p)) (classOf y) :=
                bump3_ge_o ml (ov p) (hclp ▸ hcl) (classOf_le_two y)
              omega
          · split
            · simp
            · exact (hIH _ _).1
          · intro x hx
            rcases List.mem_cons.mp hx with rfl | hx'
            · rw [hclp]; exact hgt
            · split at hx'
              · simp at hx'
              · have h1 := (hIH (bump3 ml i (ov p)) _).2 x hx'
                have h2 := bump3_ge_old ml i (ov p) (classOf x)
                omega

/-- Claim C7: in the selection loop a popped candidate whose overuse
score does not strictly exceed the best score recorded for its class is
discarded with no other state change, and every accepted candidate
raises the best-overuse threshold of its own and all harder classes;
consequently no frontier entry is preceded by an entry of an
equal-or-easier width class whose overuse score is at least as large
(in particular the claimed size/overuse dominance filter holds). -/
theorem claim_C7_dominance_invariant (chk : ℕ → ℕ → ℕ → Bool)
    (ov : ℕ → ℕ → ℕ → ℕ)
    (sec_level num_sig sign_op max_s d_restrict h_restrict a_restrict : ℕ) :
    (doSearchFrontier chk ov sec_level num_sig sign_op max_s d_restrict
      h_restrict a_restrict).Pairwise
        (fun x y => classOf x ≤ classOf y →
          ov x.h x.a x.k < ov y.h y.a y.k) ∧
    (∀ (fuel : ℕ) (q0 q1 q2 : List ParameterSet) (ml : ℕ × ℕ × ℕ)
        (ct : Bool × Bool × Bool) (i : ℕ) (p : ParameterSet),
      pickWinner q0 q1 q2 = (i, some p) → getc3 ct i = false →
      ov p.h p.a p.k ≤ get3 ml i →
      select (fun x => ov x.h x.a x.k) max_s (fuel + 1) q0 q1 q2 ml ct =
        select (fun x => ov x.h x.a x.k) max_s fuel (popAt i q0 q1 q2).1
          (popAt i q0 q1 q2).2.1 (popAt i q0 q1 q2).2.2 ml ct) := by
  constructor
  · have hcq : ∀ c, ∀ x ∈ my_sort (classQueue chk sec_level num_sig sign_op
        d_restrict h_restrict a_restrict c), classOf x = c := by
      intro c x hx
      have hx' := (my_sort_perm _).mem_iff.mp hx
      unfold classQueue at hx'
      rw [List.mem_reverse] at hx'
      have := (List.mem_filter.mp hx').2
      simpa using this
    exact (select_class_overuse (fun x => ov x.h x.a x.k) max_s _ _ _ _
      (0, 0, 0) (false, false, false) (hcq 0) (hcq 1) (hcq 2)).1
  · intro fuel q0 q1 q2 ml ct i p hpw hct hle
    rw [select, hpw]
    simp only [hct, Bool.false_eq_true, if_false, if_pos hle]

/-- Witness for claim C7: a popped W=16 candidate whose overuse score 1
does not exceed the recorded class best 5 is dropped and the loop
continues on the popped state. -/
theorem claim_C7_witness :
    pickWinner [⟨0, 0, 0, 0, 16, 100, 0, 0⟩] [] [] =
      (0, some ⟨0, 0, 0, 0, 16, 100, 0, 0⟩) ∧
    getc3 (false, false, false) 0 = false ∧
    (1 : ℕ) ≤ get3 (5, 0, 0) 0 ∧
    select (fun x : ParameterSet => (fun _ _ _ => (1 : ℕ)) x.h x.a x.k) 0 1
        [⟨0, 0, 0, 0, 16, 100, 0, 0⟩] [] [] (5, 0, 0)
        (false, false, false) =
      select (fun x : ParameterSet => (fun _ _ _ => (1 : ℕ)) x.h x.a x.k) 0 0
        [] [] [] (5, 0, 0) (false, false, false) :=
  ⟨by decide, rfl, by decide,
    (claim_C7_dominance_invariant (fun _ _ _ => true) (fun _ _ _ => 1)
      0 0 0 0 0 0 0).2 0 [⟨0, 0, 0, 0, 16, 100, 0, 0⟩] [] []
      (5, 0, 0) (false, false, false) 0 ⟨0, 0, 0, 0, 16, 100, 0, 0⟩
      (by decide) rfl (by decide)⟩

/-- Claim C8: for every input list, `my_sort` returns a permutation of
the input (so every input element appears exactly once, for inputs of
every size, including `2^k + 1` which ripples a carry through all
bins), ordered best-first by the `my_compare` comparator: signature
size ascending, then signing cost ascending, then verification cost
ascending. -/
theorem claim_C8_my_sort_correct (l : List ParameterSet) :
    List.Perm (my_sort l) l ∧
    (my_sort l).Pairwise (fun a b =>
      a.sig_size < b.sig_size ∨
        (a.sig_size = b.sig_size ∧
          (a.sig_time < b.sig_time ∨
            (a.sig_time = b.sig_time ∧ a.ver_time ≤ b.ver_time)))) ∧
    (∀ a b : ParameterSet, 0 ≤ my_compare a b ↔
      (a.sig_size < b.sig_size ∨
        (a.sig_size = b.sig_size ∧
          (a.sig_time < b.sig_time ∨
            (a.sig_time = b.sig_time ∧ a.ver_time ≤ b.ver_time))))) :=
  ⟨my_sort_perm l, my_sort_sorted l, fun a b => my_compare_nonneg_iff a b⟩

end SphincsSearch
